import Mathlib

/-
Verification of the CVRP solver suite (vehicle_routing: annealing,
clarke_wright_merge_vrp, and the iterative-refinement solver).

Shallow embedding conventions:
* `i32` values (distances, demands, capacity) are modelled as `Int`; the sums
  involved in the claims stay far from the i32 range, so wraparound is not
  modelled.
* The distance matrix is a `List (List Int)` and `demands` a `List Int`,
  read through total lookups with default `0` / `[]`; every access made by
  the code on the inputs of the claims is in range, so the defaults are
  never hit there.
* The f64 comparison `dist > max_total_distance * 1.05` of the savings
  solver is modelled exactly over the integers as `21 * maxD < 20 * dist`;
  the instances used by the claims are far from the rounding boundary.
* Randomness (thread_rng) is externalised: random draws become explicit
  arguments of the functions that consume them.
* `while` loops become fuel-indexed recursions; where a claim is about the
  state at normal loop exit, the fueled function returns `Option` and
  `some` means the loop exited on its own condition.
-/

namespace VRP

/-- A route is a list of node indices; a solution a list of routes. -/
abbrev Sol := List (List Nat)

/-- Demand lookup `demands[k]`. -/
def demGet (dem : List Int) (k : Nat) : Int := dem.getD k 0

/-- Distance-matrix lookup `distance_matrix[a][b]`. -/
def mat (d : List (List Int)) (a b : Nat) : Int := (d.getD a []).getD b 0

/-- `route.windows(2).map(|p| d[p[0]][p[1]]).sum()` — the edge sum of one
route, as in `calculate_total_distance` / `calculate_fitness`. -/
def routeDistance (d : List (List Int)) : List Nat → Int
  | [] => 0
  | [_] => 0
  | a :: b :: rest => mat d a b + routeDistance d (b :: rest)

/-- `calculate_total_distance` / `calculate_fitness`: sum over all routes. -/
def totalDistance (d : List (List Int)) (s : Sol) : Int :=
  (s.map (routeDistance d)).sum

/-- Interior (non-terminal) elements of a route: drop the leading and the
trailing entry. -/
def interiorNodes (r : List Nat) : List Nat := (r.drop 1).dropLast

/-- Sum of the demands of a route's interior nodes. -/
def interiorDemand (dem : List Int) (r : List Nat) : Int :=
  ((interiorNodes r).map (demGet dem)).sum

/-! ## The route feasibility packer

`initialize_solution` (annealing.rs) starts with `routes = [[0]]`,
`current_load = 0`; for each node it opens a fresh `[0]` route whenever
`current_load + demands[node] > capacity`, then pushes the node; at the end
it appends `0` to every route.  The identical loop reappears inside
`generate_neighbor`. -/

/-- The packing loop of `initialize_solution`: `cur` is the (open) last
route, `load` the current load. -/
def packGo (dem : List Int) (cap : Int) : List Nat → List Nat → Int → List (List Nat)
  | [], cur, _ => [cur]
  | node :: rest, cur, load =>
    if load + demGet dem node > cap then
      cur :: packGo dem cap rest [0, node] (demGet dem node)
    else
      packGo dem cap rest (cur ++ [node]) (load + demGet dem node)

/-- The full packer: run the loop from `[[0]]`, load `0`, then append the
closing depot `0` to every route. -/
def pack (dem : List Int) (cap : Int) (nodes : List Nat) : List (List Nat) :=
  (packGo dem cap nodes [0] 0).map (fun r => r ++ [0])

/-- `initialize_solution` applied to an externally supplied permutation of
the customer nodes (the `shuffle` is the caller's random draw). -/
def initSolution (dem : List Int) (cap : Int) (perm : List Nat) : Sol :=
  pack dem cap perm

theorem packGo_flatten (dem : List Int) (cap : Int) :
    ∀ (nodes cur : List Nat) (load : Int), cur ≠ [] →
      ((packGo dem cap nodes cur load).map (fun r => r.drop 1)).flatten =
        cur.drop 1 ++ nodes := by
  intro nodes
  induction nodes with
  | nil =>
    intro cur load _
    simp [packGo]
  | cons node rest ih =>
    intro cur load hcur
    by_cases h : load + demGet dem node > cap
    · simp only [packGo, if_pos h, List.map_cons, List.flatten_cons]
      rw [ih [0, node] (demGet dem node) (by simp)]
      simp
    · simp only [packGo, if_neg h]
      rw [ih (cur ++ [node]) (load + demGet dem node) (by simp)]
      match cur, hcur with
      | c :: cs, _ => simp

theorem interior_concat_zero (core : List Nat) :
    interiorNodes (core ++ [0]) = core.drop 1 := by
  match core with
  | [] => rfl
  | c :: cs => simp [interiorNodes]

/-- Flattening the interiors of the packer's output recovers the input
sequence: the packer only regroups, it never reorders, drops or adds a
customer. -/
theorem pack_flatten (dem : List Int) (cap : Int) (seq : List Nat) :
    ((pack dem cap seq).map interiorNodes).flatten = seq := by
  unfold pack
  rw [List.map_map]
  have hfun : interiorNodes ∘ (fun r => r ++ [0]) = fun r => r.drop 1 := by
    funext r
    exact interior_concat_zero r
  rw [hfun, packGo_flatten dem cap seq [0] 0 (by simp)]
  rfl

/-- C10: the feasibility packer is idempotent — re-packing the flattened
interior sequence of an already-packed solution yields the same route
partition (stated under the claim's precondition that every demand in the
sequence is at most the capacity). -/
theorem c10_pack_idempotent (dem : List Int) (cap : Int) (seq : List Nat)
    (_hdem : ∀ x ∈ seq, demGet dem x ≤ cap) :
    pack dem cap (((pack dem cap seq).map interiorNodes).flatten) =
      pack dem cap seq := by
  rw [pack_flatten]

/-- Witness for C10 at a concrete input. -/
theorem c10_witness :
    (∀ x ∈ [1, 2, 3], demGet [0, 2, 3, 4] x ≤ 5) ∧
      pack [0, 2, 3, 4] 5 (((pack [0, 2, 3, 4] 5 [1, 2, 3]).map interiorNodes).flatten) =
        pack [0, 2, 3, 4] 5 [1, 2, 3] :=
  ⟨by decide, c10_pack_idempotent [0, 2, 3, 4] 5 [1, 2, 3] (by decide)⟩

/-! ## Simulated annealing: `generate_neighbor` (annealing.rs)

The three `thread_rng` draws (`route_idx`, `node_idx`, `new_idx`) are taken
as explicit arguments.  The function clones the solution, swaps two interior
positions of route `route_idx` when that route has length `> 3`, and then
builds `valid_solution` by running the feasibility re-packing loop over the
elements of that single route — the other routes of the input never reach
the returned value, and the chosen route's own depot entries are fed through
the packing loop as ordinary nodes. -/

/-- `Vec::swap(a, b)` on a route. -/
def swapAt (l : List Nat) (a b : Nat) : List Nat :=
  (l.set a (l.getD b 0)).set b (l.getD a 0)

/-- `generate_neighbor` with the random draws made explicit. -/
def generateNeighbor (dem : List Int) (cap : Int) (s : Sol)
    (routeIdx nodeIdx newIdx : Nat) : Sol :=
  let route := s.getD routeIdx []
  let route2 := if 3 < route.length then swapAt route nodeIdx newIdx else route
  pack dem cap route2

/-- C4 evidence: on the two-route solution `[[0,1,0],[0,2,0]]` (demands
`[0,6,6]`, capacity `10`) with the rng choosing route `0`, the neighbor is
the single route `[0,0,1,0,0]`: the depot occurs as an interior element and
customer `2` has disappeared — the returned neighbor violates anchoring,
and (having strictly smaller fitness for any positive matrix) is accepted
and recorded as the best solution by the annealing loop. -/
theorem c4_neighbor_interior_depot :
    generateNeighbor [0, 6, 6] 10 [[0, 1, 0], [0, 2, 0]] 0 1 1 = [[0, 0, 1, 0, 0]] ∧
      0 ∈ interiorNodes [0, 0, 1, 0, 0] ∧
      2 ∉ (([[0, 0, 1, 0, 0]] : Sol).map interiorNodes).flatten ∧
      (∀ k < 3, demGet [0, 6, 6] k ≤ 10) := by
  refine ⟨by decide, by decide, by decide, by decide⟩

/-! ## Clarke-Wright savings merge (clarke_wright_merge_vrp.rs) -/

/-- The solver's mutable state: `routes[k]` is the route registered under
endpoint key `k` (`None` once taken), `route_demands` and `route_distances`
the per-endpoint caches. -/
structure CWState where
  routes : List (Option (List Nat))
  routeDemands : List Int
  routeDistances : List Int

/-- The inner helper `calculate_route_distance`: walk the route starting
from the depot and add the return edge. -/
def cwRouteDistGo (d : List (List Int)) : Nat → List Nat → Int
  | last, [] => mat d last 0
  | last, node :: rest => mat d last node + cwRouteDistGo d node rest

def cwRouteDistance (d : List (List Int)) (route : List Nat) : Int :=
  cwRouteDistGo d 0 route

/-- The savings scores `(d[i][0] + d[0][j] - d[i][j], i, j)` for `1 ≤ i < j < n`,
in the generation order of the source. -/
def cwScores (d : List (List Int)) (n : Nat) : List (Int × Nat × Nat) :=
  ((List.range' 1 (n - 1)).map (fun i =>
    (List.range' (i + 1) (n - (i + 1))).map (fun j =>
      (mat d i 0 + mat d 0 j - mat d i j, i, j)))).flatten

/-- Insertion into a descending-by-score list (`sort_unstable_by` with
comparator `b.0.cmp(&a.0)`; tie order is unspecified in the source, and the
claims below only use instances without score ties). -/
def insertDesc (x : Int × Nat × Nat) : List (Int × Nat × Nat) → List (Int × Nat × Nat)
  | [] => [x]
  | y :: ys => if y.1 < x.1 then x :: y :: ys else y :: insertDesc x ys

def sortDesc : List (Int × Nat × Nat) → List (Int × Nat × Nat)
  | [] => []
  | x :: xs => insertDesc x (sortDesc xs)

/-- One iteration of the merge scan for the pair `(i, j)`.  Note the order
of operations taken from the source: both `routes[i]` and `routes[j]` are
`take`n (set to `None`) *before* the `1.05 × max_total_distance` check, and
a rejection (`continue`) does not restore them. -/
def cwStep (d : List (List Int)) (c maxD : Int) (st : CWState) (i j : Nat) : CWState :=
  match st.routes.getD i none, st.routes.getD j none with
  | some leftRoute, some rightRoute =>
    let leftStart := leftRoute.headD 0
    let rightStart := rightRoute.headD 0
    let rightEnd := rightRoute.getLastD 0
    let mergedDemand := st.routeDemands.getD leftStart 0 + st.routeDemands.getD rightStart 0
    if leftStart = rightStart ∨ mergedDemand > c then st
    else
      let routes1 := (st.routes.set i none).set j none
      let left2 := if leftStart = i then leftRoute.reverse else leftRoute
      let right2 := if rightEnd = j then rightRoute.reverse else rightRoute
      let newRoute := left2 ++ right2
      let newDist := cwRouteDistance d newRoute
      if 21 * maxD < 20 * newDist then { st with routes := routes1 }
      else
        let start := newRoute.headD 0
        let endNode := newRoute.getLastD 0
        { routes := (routes1.set start (some newRoute)).set endNode (some newRoute),
          routeDemands := (st.routeDemands.set start mergedDemand).set endNode mergedDemand,
          routeDistances := (st.routeDistances.set start newDist).set endNode newDist }
  | _, _ => st

/-- Initial state: one singleton route per non-depot node, demands cloned
from the instance, distance cache zeroed. -/
def cwInit (dem : List Int) (n : Nat) : CWState :=
  { routes := (List.range n).map (fun i => if i = 0 then none else some [i]),
    routeDemands := dem,
    routeDistances := List.replicate n 0 }

/-- The scan over the sorted score list. -/
def cwMergeLoop (d : List (List Int)) (c maxD : Int) (st : CWState)
    (scores : List (Int × Nat × Nat)) : CWState :=
  scores.foldl (fun s p => cwStep d c maxD s p.2.1 p.2.2) st

/-- Final emission: a registered route is emitted, depot-bracketed, only
under the key equal to its first node. -/
def cwFinalRoutes (st : CWState) : Sol :=
  st.routes.enum.filterMap (fun p =>
    match p.2 with
    | some route =>
      match route with
      | [] => none
      | h :: _ => if h = p.1 then some (0 :: (route ++ [0])) else none
    | none => none)

def cwSolve (d : List (List Int)) (dem : List Int) (c maxD : Int) (n : Nat) : Sol :=
  cwFinalRoutes (cwMergeLoop d c maxD (cwInit dem n) (sortDesc (cwScores d n)))

/-- `solve_challenge` of the savings solver: the source unconditionally
returns `Ok(Some(Solution { routes: final_routes }))`; there is no error
path and no `None` path. -/
def cwSolveChallenge (d : List (List Int)) (dem : List Int) (c maxD : Int)
    (n : Nat) : Option Sol :=
  some (cwSolve d dem c maxD n)

/-- C1 evidence: instance with 3 nodes, demands `[0,5,5]` (all within the
capacity `20`), all inter-node distances `10`, `max_total_distance = 10`.
The only candidate pair `(1,2)` passes the capacity check, both singleton
routes are taken, and the merge is then rejected by the `1.05×` distance
check — leaving both routes deregistered.  The solver returns the Solution
with NO routes at all: customer `1` (and `2`) appears zero times instead of
exactly once. -/
theorem c1_cw_drops_nodes :
    cwSolveChallenge [[0, 10, 10], [10, 0, 10], [10, 10, 0]] [0, 5, 5] 20 10 3 =
        some [] ∧
      (∀ k < 3, demGet [0, 5, 5] k ≤ 20) ∧
      ((([] : Sol).map interiorNodes).flatten.count 1 = 0) := by
  refine ⟨by decide, by decide, by decide⟩

/-- C3 evidence: in the same instance, before the scan both endpoints `1`
and `2` hold registered routes; after the single (rejected) merge attempt
both are `None` — the rejection did not leave the route state unchanged,
the routes were consumed and are gone for later merges and for emission. -/
theorem c3_reject_loses_routes :
    (cwInit [0, 5, 5] 3).routes.getD 1 none = some [1] ∧
      (cwInit [0, 5, 5] 3).routes.getD 2 none = some [2] ∧
      (cwMergeLoop [[0, 10, 10], [10, 0, 10], [10, 10, 0]] 20 10
          (cwInit [0, 5, 5] 3)
          (sortDesc (cwScores [[0, 10, 10], [10, 0, 10], [10, 10, 0]] 3))).routes.getD 1 none
        = none ∧
      (cwMergeLoop [[0, 10, 10], [10, 0, 10], [10, 10, 0]] 20 10
          (cwInit [0, 5, 5] 3)
          (sortDesc (cwScores [[0, 10, 10], [10, 0, 10], [10, 10, 0]] 3))).routes.getD 2 none
        = none := by
  refine ⟨by decide, by decide, by decide, by decide⟩

/-! ## Iterative-refinement solver (the unnamed `test copy.rs` file) -/

/-- One step of the nearest-node scan `for j in 1..num_nodes { ... }`:
keep the candidate with strictly smaller distance (the first index wins
ties, as in the source's `distance < nearest_distance` with the running
minimum). -/
def nfStep (d : List (List Int)) (dem : List Int) (cap : Int)
    (visited : List Bool) (load : Int) (last : Nat)
    (best : Option Nat) (j : Nat) : Option Nat :=
  if visited.getD j true = false ∧ load + demGet dem j ≤ cap then
    match best with
    | none => some j
    | some b => if mat d last j < mat d last b then some j else some b
  else best

/-- The nearest unvisited capacity-feasible node seen from `last`
(`nearest_node` after the `for j in 1..num_nodes` loop).  The source
compares against a running `nearest_distance` initialised to `i32::MAX`;
this is the same as comparing against the current best's distance. -/
def nearestFeasible (d : List (List Int)) (dem : List Int) (cap : Int)
    (n : Nat) (visited : List Bool) (load : Int) (last : Nat) : Option Nat :=
  (List.range' 1 (n - 1)).foldl (nfStep d dem cap visited load last) none

/-- `solution.last_mut().unwrap().push(x)`. -/
def appendToLast (sol : Sol) (x : Nat) : Sol :=
  sol.dropLast ++ [sol.getLastD [] ++ [x]]

/-- The closing pass `for route in &mut solution { if last != 0 { push 0 } }`. -/
def closeRoutes (sol : Sol) : Sol :=
  sol.map (fun r => if r.getLastD 0 = 0 then r else r ++ [0])

/-- The `while visited.iter().any(|&v| !v)` loop of
`construct_initial_solution`, fuel-indexed; `none` means the fuel ran out
before the loop exited (in particular, the source loops forever when some
unvisited demand can never fit). -/
def constructGo (d : List (List Int)) (dem : List Int) (cap : Int) (n : Nat) :
    Nat → Sol → List Bool → Int → Option Sol
  | 0, _, _, _ => none
  | fuel + 1, sol, visited, load =>
    if visited.all (fun b => b) then some (closeRoutes sol)
    else
      match nearestFeasible d dem cap n visited load ((sol.getLastD []).getLastD 0) with
      | some nxt =>
        constructGo d dem cap n fuel (appendToLast sol nxt)
          (visited.set nxt true) (load + demGet dem nxt)
      | none =>
        constructGo d dem cap n fuel (appendToLast sol 0 ++ [[0]]) visited 0

/-- `construct_initial_solution`: start from `[[0]]` with node `0` marked
visited. -/
def constructInitialSolution (d : List (List Int)) (dem : List Int)
    (cap : Int) (n fuel : Nat) : Option Sol :=
  constructGo d dem cap n fuel [[0]] ((List.replicate n false).set 0 true) 0

/-! ### 2-opt -/

/-- The four-boundary-edge delta of reversing `route[i..=j]`:
`d[r[i-1]][r[j]] + d[r[i]][r[j+1]] - d[r[i-1]][r[i]] - d[r[j]][r[j+1]]`. -/
def twoOptDelta (d : List (List Int)) (r : List Nat) (i j : Nat) : Int :=
  mat d (r.getD (i - 1) 0) (r.getD j 0) + mat d (r.getD i 0) (r.getD (j + 1) 0)
    - mat d (r.getD (i - 1) 0) (r.getD i 0) - mat d (r.getD j 0) (r.getD (j + 1) 0)

/-- `route[i..=j].reverse()` in place. -/
def reverseSegment (r : List Nat) (i j : Nat) : List Nat :=
  r.take i ++ ((r.drop i).take (j - i + 1)).reverse ++ r.drop (j + 1)

/-- The index pairs visited by the scan of one route of length `len`:
`i in 1..len-2`, `j in i+1..len-1`, with the `if j - i == 1 { continue; }`
skip. -/
def routePairs (len : Nat) : List (Nat × Nat) :=
  ((List.range' 1 (len - 3)).map (fun i =>
    ((List.range' (i + 1) (len - 1 - (i + 1))).filter (fun j => j - i ≠ 1)).map
      (fun j => (i, j)))).flatten

/-- The scan over a fixed pair list, applying every improving reversal as
it is found and recording whether any was applied. -/
def scanPairs (d : List (List Int)) : List (Nat × Nat) → List Nat → Bool → List Nat × Bool
  | [], r, imp => (r, imp)
  | (i, j) :: rest, r, imp =>
    if twoOptDelta d r i j < 0 then scanPairs d rest (reverseSegment r i j) true
    else scanPairs d rest r imp

/-- One route's scan inside a single `while improved` round. -/
def twoOptPassRoute (d : List (List Int)) (r : List Nat) : List Nat × Bool :=
  scanPairs d (routePairs r.length) r false

/-- One full round over all routes, accumulating the shared `improved`
flag. -/
def twoOptPass (d : List (List Int)) : Sol → Sol × Bool
  | [] => ([], false)
  | r :: rest =>
    let q := twoOptPassRoute d r
    let w := twoOptPass d rest
    (q.1 :: w.1, q.2 || w.2)

/-- `two_opt_optimization`, fuel-indexed and total: when the fuel runs out
the current state is returned (the claims about normal exit use
`twoOptTerm` below instead). -/
def twoOptGo (d : List (List Int)) : Nat → Sol → Sol
  | 0, s => s
  | fuel + 1, s =>
    let q := twoOptPass d s
    if q.2 then twoOptGo d fuel q.1 else q.1

/-- `two_opt_optimization` with normal termination made observable:
`some s` exactly when a full round applied no reversal within the fuel. -/
def twoOptTerm (d : List (List Int)) : Nat → Sol → Option Sol
  | 0, _ => none
  | fuel + 1, s =>
    let q := twoOptPass d s
    if q.2 then twoOptTerm d fuel q.1 else some q.1

/-! ### Relocate (insertion) and swap moves -/

/-- `l.remove(n)` of `Vec`. -/
def eraseAt (n : Nat) (l : List Nat) : List Nat := l.take n ++ l.drop (n + 1)

/-- `l.insert(n, a)` of `Vec`. -/
def insertAt (n : Nat) (a : Nat) (l : List Nat) : List Nat := l.take n ++ a :: l.drop n

/-- Best-move selection shared by both operators: running `best_delta`
starts at `0`, a candidate replaces it only when strictly smaller, so the
earliest best-delta move in scan order wins. -/
def selectBest (cands : List (Int × Nat × Nat × Nat × Nat)) :
    Option (Nat × Nat × Nat × Nat) :=
  (cands.foldl (fun acc c => if c.1 < acc.1 then (c.1, some c.2) else acc)
    ((0 : Int), (none : Option (Nat × Nat × Nat × Nat)))).2

/-- The candidate moves of `apply_insertion_move` in scan order:
`(delta, from_route, from_idx, to_route, to_idx)`; routes whose load plus
the moved demand would exceed capacity are skipped before the position
loop. -/
def insertionCandidates (d : List (List Int)) (dem : List Int) (cap : Int)
    (s : Sol) : List (Int × Nat × Nat × Nat × Nat) :=
  ((List.range s.length).map (fun ri =>
    ((List.range' 1 ((s.getD ri []).length - 2)).map (fun i =>
      ((List.range s.length).map (fun rj =>
        if rj = ri then []
        else
          let route := s.getD ri []
          let node := route.getD i 0
          let newRoute := s.getD rj []
          let newLoad := (newRoute.map (demGet dem)).sum
          if newLoad + demGet dem node > cap then []
          else
            (List.range' 1 (newRoute.length - 1)).map (fun j =>
              (mat d (route.getD (i - 1) 0) (route.getD (i + 1) 0)
                  - mat d (route.getD (i - 1) 0) node - mat d node (route.getD (i + 1) 0)
                  + mat d (newRoute.getD (j - 1) 0) node + mat d node (newRoute.getD j 0)
                  - mat d (newRoute.getD (j - 1) 0) (newRoute.getD j 0),
                ri, i, rj, j)))).flatten)).flatten)).flatten

/-- `apply_insertion_move`: apply only the single best improving relocate,
as `remove` then `insert`. -/
def applyInsertionMove (d : List (List Int)) (dem : List Int) (cap : Int)
    (s : Sol) : Sol :=
  match selectBest (insertionCandidates d dem cap s) with
  | none => s
  | some (fr, fi, tr, tj) =>
    let node := (s.getD fr []).getD fi 0
    let s1 := s.set fr (eraseAt fi (s.getD fr []))
    s1.set tr (insertAt tj node (s1.getD tr []))

/-- The candidate moves of `apply_swap_move` in scan order:
`(delta, route1, i, route2, j)`; for cross-route pairs, pairs whose
post-swap loads would exceed either capacity are skipped. -/
def swapCandidates (d : List (List Int)) (dem : List Int) (cap : Int)
    (s : Sol) : List (Int × Nat × Nat × Nat × Nat) :=
  ((List.range s.length).map (fun r1 =>
    ((List.range' 1 ((s.getD r1 []).length - 2)).map (fun i =>
      ((List.range' r1 (s.length - r1)).map (fun r2 =>
        let lo := if r1 = r2 then i + 1 else 1
        (List.range' lo ((s.getD r2 []).length - 1 - lo)).filterMap (fun j =>
          let route1 := s.getD r1 []
          let route2 := s.getD r2 []
          let node1 := route1.getD i 0
          let node2 := route2.getD j 0
          let load1 := (route1.map (demGet dem)).sum
          let load2 := (route2.map (demGet dem)).sum
          if r1 ≠ r2 ∧
              (load1 - demGet dem node1 + demGet dem node2 > cap ∨
               load2 - demGet dem node2 + demGet dem node1 > cap) then none
          else
            some (mat d (route1.getD (i - 1) 0) node2 + mat d node2 (route1.getD (i + 1) 0)
                - mat d (route1.getD (i - 1) 0) node1 - mat d node1 (route1.getD (i + 1) 0)
                + mat d (route2.getD (j - 1) 0) node1 + mat d node1 (route2.getD (j + 1) 0)
                - mat d (route2.getD (j - 1) 0) node2 - mat d node2 (route2.getD (j + 1) 0),
              r1, i, r2, j)))).flatten)).flatten)).flatten

/-- The application of the chosen swap, exactly as in the source:
`solution[r1][i] = solution[r2][j]; solution[r2][j] = solution[r1][i];`
— the second read sees the first write. -/
def applySwapAssign (s : Sol) (r1 i r2 j : Nat) : Sol :=
  let node2 := (s.getD r2 []).getD j 0
  let s1 := s.set r1 ((s.getD r1 []).set i node2)
  let v := (s1.getD r1 []).getD i 0
  s1.set r2 ((s1.getD r2 []).set j v)

/-- `apply_swap_move`. -/
def applySwapMove (d : List (List Int)) (dem : List Int) (cap : Int)
    (s : Sol) : Sol :=
  match selectBest (swapCandidates d dem cap s) with
  | none => s
  | some (r1, i, r2, j) => applySwapAssign s r1 i r2 j

/-! ### The refinement controller -/

def MAX_ITERATIONS : Nat := 1000

/-- One refinement round: relocate, swap, then 2-opt (with fuel `tfuel`)
on a clone of the incumbent. -/
def refineStep (d : List (List Int)) (dem : List Int) (cap : Int)
    (tfuel : Nat) (best : Sol) : Sol :=
  twoOptGo d tfuel (applySwapMove d dem cap (applyInsertionMove d dem cap best))

/-- The `for _ in 0..MAX_ITERATIONS` loop: adopt the refined candidate when
strictly better, return `Some` as soon as the incumbent fitness is at most
`maxD`, `None` when the iterations are exhausted. -/
def iterLoop (d : List (List Int)) (dem : List Int) (cap maxD : Int)
    (tfuel : Nat) : Nat → Sol → Int → Option Sol
  | 0, _, _ => none
  | k + 1, best, bestFit =>
    let nw := refineStep d dem cap tfuel best
    let nwFit := totalDistance d nw
    let best2 := if nwFit < bestFit then nw else best
    let fit2 := if nwFit < bestFit then nwFit else bestFit
    if fit2 ≤ maxD then some best2 else iterLoop d dem cap maxD tfuel k best2 fit2

/-- `solve_challenge` of the iterative solver.  The outer `none` marks
construction fuel exhaustion (the source would still be inside its
construction loop); otherwise the result is `some (Some solution)` or
`some None`, mirroring `Ok(Some(..))` / `Ok(None)` — the source has no
error return. -/
def iterativeSolve (d : List (List Int)) (dem : List Int) (cap maxD : Int)
    (n cfuel tfuel : Nat) : Option (Option Sol) :=
  match constructInitialSolution d dem cap n cfuel with
  | none => none
  | some s0 =>
    let b0 := twoOptGo d tfuel s0
    some (iterLoop d dem cap maxD tfuel MAX_ITERATIONS b0 (totalDistance d b0))

/-! ## Concrete instances used as evidence -/

/-- 3-node instance (depot + customers 1, 2), symmetric:
`d[0][1]=5`, `d[0][2]=6`, `d[1][2]=10`. -/
def dIter : List (List Int) := [[0, 5, 6], [5, 0, 10], [6, 10, 0]]

/-- 2-node instance used for the oversized-demand scenario. -/
def dBig : List (List Int) := [[0, 3], [3, 0]]

/-- 4-node symmetric instance for the 2-opt adjacent-pair gap:
`d[0][1]=10`, `d[0][2]=1`, `d[0][3]=5`, `d[1][2]=2`, `d[1][3]=1`,
`d[2][3]=10`. -/
def dOpt : List (List Int) := [[0, 10, 1, 5], [10, 0, 2, 1], [1, 2, 0, 10], [5, 1, 10, 0]]

/-- C2 evidence: on `[[0,1,2,0]]` (demands `[0,1,9]`, capacity `10`) the
swap scan finds exactly the improving move at positions `(0,1)` and `(0,2)`
holding nodes `1` and `2`; after the move is applied, position `(0,2)`
holds `2`, not the original `node1 = 1` — the double assignment copies the
already-overwritten value, so the two positions do NOT exchange their
original values. -/
theorem c2_swap_not_exchange :
    selectBest (swapCandidates dIter [0, 1, 9] 10 [[0, 1, 2, 0]]) = some (0, 1, 0, 2) ∧
      (([[0, 1, 2, 0]] : Sol).getD 0 []).getD 1 0 = 1 ∧
      (([[0, 1, 2, 0]] : Sol).getD 0 []).getD 2 0 = 2 ∧
      applySwapMove dIter [0, 1, 9] 10 [[0, 1, 2, 0]] = [[0, 2, 2, 0]] ∧
      ((applySwapMove dIter [0, 1, 9] 10 [[0, 1, 2, 0]]).getD 0 []).getD 2 0 ≠ 1 := by
  refine ⟨by decide, by decide, by decide, by decide, by decide⟩

/-- C7 evidence: the full iterative solver, on the instance with demands
`[0,1,9]` (each at most the capacity `10`), returns the Solution
`[[0,2,2,0]]` whose single route carries interior demand `18 > 10`: the
accepted "swap" duplicated customer `2` inside one route, and the
same-route branch performs no capacity check. -/
theorem c7_swap_breaks_capacity :
    iterativeSolve dIter [0, 1, 9] 10 1000 3 8 2 = some (some [[0, 2, 2, 0]]) ∧
      (∀ k < 3, demGet [0, 1, 9] k ≤ 10) ∧
      interiorDemand [0, 1, 9] [0, 2, 2, 0] = 18 ∧
      ¬ interiorDemand [0, 1, 9] [0, 2, 2, 0] ≤ 10 := by
  refine ⟨by decide, by decide, by decide, by decide⟩

theorem constructGo_oversized_diverges :
    ∀ (fuel : Nat) (sol : Sol),
      constructGo dBig [0, 15] 10 2 fuel sol [true, false] 0 = none := by
  intro fuel
  induction fuel with
  | zero => intro sol; rfl
  | succ f ih =>
    intro sol
    have hnf : ∀ last, nearestFeasible dBig [0, 15] 10 2 [true, false] 0 last = none := by
      intro last
      show nfStep dBig [0, 15] 10 [true, false] 0 last none 1 = none
      simp [nfStep, demGet]
    simp only [constructGo, hnf]
    have hall : ([true, false].all (fun b => b)) = false := by decide
    rw [hall]
    simpa using ih (appendToLast sol 0 ++ [[0]])

/-- C5 evidence: with demands `[0,15]` and capacity `10` (an oversized
demand), no solver produces an error outcome.  The savings solver returns
`Ok(Some([[0,1,0]]))` whose route carries interior demand `15 > 10`; the
annealing constructor packs the same infeasible route (plus an empty
depot-pair route) and the annealing loop always ends in `Ok(Some(..))`;
and the iterative solver's `construct_initial_solution` never exits its
`while` loop — for every amount of fuel it is still running. -/
theorem c5_no_error_on_oversized_demand :
    cwSolveChallenge dBig [0, 15] 10 100 2 = some [[0, 1, 0]] ∧
      ¬ interiorDemand [0, 15] [0, 1, 0] ≤ 10 ∧
      initSolution [0, 15] 10 [1] = [[0, 0], [0, 1, 0]] ∧
      (∀ fuel, constructInitialSolution dBig [0, 15] 10 2 fuel = none) := by
  refine ⟨by decide, by decide, by decide, ?_⟩
  intro fuel
  show constructGo dBig [0, 15] 10 2 fuel [[0]] ((List.replicate 2 false).set 0 true) 0 = none
  have h2 : (List.replicate 2 false).set 0 true = [true, false] := by decide
  rw [h2]
  exact constructGo_oversized_diverges fuel [[0]]

/-- C8 counterexample: on `dOpt`, `two_opt_optimization` exits at once on
the route `[0,1,2,3,0]` (its only scanned pair `(1,3)` has delta `0`), yet
the pair `(i,j) = (1,2)` — within the claim's range `1 ≤ i < j ≤ len-2` —
is an improving reversal: reversing `[1..=2]` drops the route distance
from `27` to `9`.  The scan never examines it because of the
`if j - i == 1 { continue; }` skip. -/
theorem c8_cex :
    twoOptTerm dOpt 1 [[0, 1, 2, 3, 0]] = some [[0, 1, 2, 3, 0]] ∧
      (1 ≤ 1 ∧ 1 < 2 ∧ 2 ≤ ([0, 1, 2, 3, 0] : List Nat).length - 2) ∧
      routeDistance dOpt (reverseSegment [0, 1, 2, 3, 0] 1 2) <
        routeDistance dOpt [0, 1, 2, 3, 0] := by
  refine ⟨by decide, by decide, by decide⟩

/-! ## 2-opt fixpoint analysis (C8) -/

theorem scanPairs_true (d : List (List Int)) :
    ∀ (ps : List (Nat × Nat)) (r : List Nat), (scanPairs d ps r true).2 = true := by
  intro ps
  induction ps with
  | nil => intro r; rfl
  | cons p rest ih =>
    intro r
    obtain ⟨i, j⟩ := p
    by_cases h : twoOptDelta d r i j < 0
    · simp only [scanPairs, if_pos h]
      exact ih _
    · simp only [scanPairs, if_neg h]
      exact ih _

theorem scanPairs_fix (d : List (List Int)) :
    ∀ (ps : List (Nat × Nat)) (r r0 : List Nat),
      scanPairs d ps r false = (r0, false) →
      r0 = r ∧ ∀ p ∈ ps, 0 ≤ twoOptDelta d r p.1 p.2 := by
  intro ps
  induction ps with
  | nil =>
    intro r r0 h
    simp only [scanPairs, Prod.mk.injEq] at h
    exact ⟨h.1.symm, by simp⟩
  | cons p rest ih =>
    intro r r0 h
    obtain ⟨i, j⟩ := p
    by_cases hd : twoOptDelta d r i j < 0
    · exfalso
      simp only [scanPairs, if_pos hd] at h
      have := scanPairs_true d rest (reverseSegment r i j)
      rw [h] at this
      exact Bool.false_ne_true this
    · simp only [scanPairs, if_neg hd] at h
      obtain ⟨h1, h2⟩ := ih r r0 h
      refine ⟨h1, ?_⟩
      intro q hq
      rcases List.mem_cons.mp hq with hq | hq
      · subst hq
        exact le_of_not_lt hd
      · exact h2 q hq

theorem twoOptPass_fix (d : List (List Int)) :
    ∀ (s s0 : Sol), twoOptPass d s = (s0, false) →
      s0 = s ∧ ∀ r ∈ s, ∀ p ∈ routePairs r.length, 0 ≤ twoOptDelta d r p.1 p.2 := by
  intro s
  induction s with
  | nil =>
    intro s0 h
    simp only [twoOptPass, Prod.mk.injEq] at h
    exact ⟨h.1.symm, by simp⟩
  | cons r rest ih =>
    intro s0 h
    simp only [twoOptPass, Prod.mk.injEq] at h
    obtain ⟨h1, h2⟩ := h
    rcases Bool.or_eq_false_iff.mp h2 with ⟨hq, hw⟩
    have hroute : scanPairs d (routePairs r.length) r false =
        ((twoOptPassRoute d r).1, false) := by
      show twoOptPassRoute d r = _
      rw [← hq]
    obtain ⟨hr1, hr2⟩ := scanPairs_fix d (routePairs r.length) r (twoOptPassRoute d r).1 hroute
    have hrest : twoOptPass d rest = ((twoOptPass d rest).1, false) := by
      rw [← hw]
    obtain ⟨hw1, hw2⟩ := ih (twoOptPass d rest).1 hrest
    constructor
    · rw [← h1, hr1, hw1]
    · intro r' hr'
      rcases List.mem_cons.mp hr' with hr' | hr'
      · subst hr'
        exact hr2
      · exact hw2 r' hr'

theorem twoOptTerm_fix (d : List (List Int)) :
    ∀ (fuel : Nat) (s s1 : Sol), twoOptTerm d fuel s = some s1 →
      twoOptPass d s1 = (s1, false) := by
  intro fuel
  induction fuel with
  | zero => intro s s1 h; exact absurd h (by simp [twoOptTerm])
  | succ f ih =>
    intro s s1 h
    simp only [twoOptTerm] at h
    by_cases hq : (twoOptPass d s).2
    · rw [if_pos hq] at h
      exact ih _ _ h
    · rw [if_neg hq] at h
      have h1 : (twoOptPass d s).1 = s1 := Option.some.inj h
      have hp : twoOptPass d s = (s1, false) := by
        rw [← h1, ← Bool.eq_false_iff.mpr hq]
      have hs : s1 = s := (twoOptPass_fix d s s1 hp).1
      rw [hs]
      rw [hs] at hp
      exact hp

theorem routePairs_complete (len i j : Nat) (hi : 1 ≤ i) (hij : i < j)
    (hadj : j ≠ i + 1) (hj : j + 2 ≤ len) : (i, j) ∈ routePairs len := by
  unfold routePairs
  rw [List.mem_flatten]
  refine ⟨((List.range' (i + 1) (len - 1 - (i + 1))).filter (fun j => j - i ≠ 1)).map
    (fun j => (i, j)), List.mem_map_of_mem _ ?_, ?_⟩
  · rw [List.mem_range'_1]
    omega
  · apply List.mem_map_of_mem
    rw [List.mem_filter, List.mem_range'_1]
    refine ⟨by omega, ?_⟩
    simp only [decide_eq_true_eq]
    omega

theorem getLastD_eq_getD : ∀ (l : List Nat), l ≠ [] → l.getLastD 0 = l.getD (l.length - 1) 0
  | [], h => absurd rfl h
  | [_], _ => rfl
  | a :: b :: t, _ => by
    have h2 := getLastD_eq_getD (b :: t) (by simp)
    simp only [List.getLastD_cons, List.length_cons, Nat.succ_sub_one] at h2 ⊢
    rw [List.getD_cons_succ]
    exact h2

theorem headD_eq_getD (l : List Nat) (h : l ≠ []) : l.headD 0 = l.getD 0 0 := by
  match l, h with
  | a :: t, _ => rfl

theorem getD_take : ∀ (r : List Nat) (i k : Nat), k < i → (r.take i).getD k 0 = r.getD k 0
  | [], _, _, _ => by simp
  | _ :: _, 0, k, h => absurd h (Nat.not_lt_zero k)
  | _ :: _, _ + 1, 0, _ => rfl
  | a :: r, i + 1, k + 1, h => by
    simp only [List.take_succ_cons, List.getD_cons_succ]
    exact getD_take r i k (Nat.lt_of_succ_lt_succ h)

theorem getD_drop : ∀ (r : List Nat) (i k : Nat), (r.drop i).getD k 0 = r.getD (i + k) 0
  | _, 0, _ => by simp
  | [], _ + 1, _ => by simp
  | a :: r, i + 1, k => by
    simp only [List.drop_succ_cons]
    rw [getD_drop r i k]
    have he : i + 1 + k = (i + k) + 1 := by omega
    rw [he, List.getD_cons_succ]

theorem routeDistance_append (d : List (List Int)) :
    ∀ (xs ys : List Nat), xs ≠ [] → ys ≠ [] →
      routeDistance d (xs ++ ys) =
        routeDistance d xs + mat d (xs.getLastD 0) (ys.headD 0) + routeDistance d ys
  | [], _, h, _ => absurd rfl h
  | [_], [], _, hy => absurd rfl hy
  | [a], b :: ys2, _, _ => by
    simp only [List.cons_append, List.nil_append, routeDistance, List.getLastD_cons,
      List.getLastD_nil, List.headD_cons]
    ring
  | a :: c :: t2, ys, _, hy => by
    have h2 := routeDistance_append d (c :: t2) ys (by simp) hy
    simp only [List.cons_append] at h2 ⊢
    simp only [routeDistance]
    rw [h2]
    simp only [List.getLastD_cons]
    ring

theorem routeDistance_reverse (d : List (List Int))
    (hsym : ∀ a b, mat d a b = mat d b a) :
    ∀ (l : List Nat), routeDistance d l.reverse = routeDistance d l
  | [] => rfl
  | [_] => rfl
  | a :: b :: t => by
    have h2 := routeDistance_reverse d hsym (b :: t)
    rw [List.reverse_cons]
    rw [routeDistance_append d (b :: t).reverse [a] (by simp) (by simp)]
    rw [h2]
    have hl : ((b :: t).reverse).getLastD 0 = b := by
      rw [getLastD_eq_getD ((b :: t).reverse) (by simp)]
      simp only [List.length_reverse, List.length_cons, Nat.succ_sub_one]
      rw [List.getD_eq_getElem?_getD, List.getElem?_reverse (by simp)]
      simp
    rw [hl]
    simp only [routeDistance, List.headD_cons, List.getLastD_nil]
    rw [hsym b a]
    ring

theorem getLastD_append_right (A M : List Nat) (hM : M ≠ []) :
    (A ++ M).getLastD 0 = M.getLastD 0 := by
  rw [List.getLastD_eq_getLast?, List.getLastD_eq_getLast?, List.getLast?_append]
  obtain ⟨x, hx⟩ := Option.isSome_iff_exists.mp (List.getLast?_isSome.mpr hM)
  rw [hx]
  rfl

theorem getLastD_reverse (M : List Nat) : (M.reverse).getLastD 0 = M.headD 0 := by
  rw [List.getLastD_eq_getLast?, List.getLast?_reverse, List.headD_eq_head?_getD]

theorem headD_reverse (M : List Nat) : (M.reverse).headD 0 = M.getLastD 0 := by
  rw [List.headD_eq_head?_getD, List.head?_reverse, List.getLastD_eq_getLast?]

/-- Reversing a middle segment changes the route's edge sum by exactly the
four-boundary-edge delta, provided the matrix is symmetric. -/
theorem routeDistance_rev_mid (d : List (List Int))
    (hsym : ∀ a b, mat d a b = mat d b a)
    (A M B : List Nat) (hA : A ≠ []) (hM : M ≠ []) (hB : B ≠ []) :
    routeDistance d (A ++ M.reverse ++ B) =
      routeDistance d (A ++ M ++ B)
        + (mat d (A.getLastD 0) (M.getLastD 0) + mat d (M.headD 0) (B.headD 0)
           - mat d (A.getLastD 0) (M.headD 0) - mat d (M.getLastD 0) (B.headD 0)) := by
  have hMr : M.reverse ≠ [] := by simp [hM]
  have hAM : A ++ M ≠ [] := by simp [hA]
  have hAMr : A ++ M.reverse ≠ [] := by simp [hA]
  rw [routeDistance_append d (A ++ M.reverse) B hAMr hB]
  rw [routeDistance_append d A M.reverse hA hMr]
  rw [routeDistance_append d (A ++ M) B hAM hB]
  rw [routeDistance_append d A M hA hM]
  rw [routeDistance_reverse d hsym M]
  rw [getLastD_append_right A M.reverse hMr, getLastD_append_right A M hM]
  rw [getLastD_reverse M, headD_reverse M]
  ring

/-- On a symmetric matrix, `reverseSegment` changes `routeDistance` by
exactly `twoOptDelta` (for interior windows `1 ≤ i < j`, `j + 2 ≤ len`). -/
theorem reverseSegment_delta (d : List (List Int))
    (hsym : ∀ a b, mat d a b = mat d b a)
    (r : List Nat) (i j : Nat) (hi : 1 ≤ i) (hij : i < j) (hj : j + 2 ≤ r.length) :
    routeDistance d (reverseSegment r i j) =
      routeDistance d r + twoOptDelta d r i j := by
  have hAlen : (r.take i).length = i := by
    rw [List.length_take]; omega
  have hMlen : ((r.drop i).take (j - i + 1)).length = j - i + 1 := by
    rw [List.length_take, List.length_drop]; omega
  have hBlen : (r.drop (j + 1)).length = r.length - (j + 1) := by
    rw [List.length_drop]
  have hA : r.take i ≠ [] := by
    intro h; rw [h] at hAlen; simp at hAlen; omega
  have hM : (r.drop i).take (j - i + 1) ≠ [] := by
    intro h; rw [h] at hMlen; simp at hMlen
  have hB : r.drop (j + 1) ≠ [] := by
    intro h; rw [h] at hBlen; simp at hBlen; omega
  have hsplit : r.take i ++ (r.drop i).take (j - i + 1) ++ r.drop (j + 1) = r := by
    rw [List.append_assoc]
    have hd : r.drop (j + 1) = (r.drop i).drop (j - i + 1) := by
      rw [List.drop_drop]
      congr 1
      omega
    rw [hd, List.take_append_drop, List.take_append_drop]
  have e2 : (r.take i).getLastD 0 = r.getD (i - 1) 0 := by
    rw [getLastD_eq_getD (r.take i) hA, hAlen, getD_take r i (i - 1) (by omega)]
  have e3 : ((r.drop i).take (j - i + 1)).headD 0 = r.getD i 0 := by
    rw [headD_eq_getD _ hM, getD_take _ _ _ (by omega), getD_drop]
    norm_num
  have e4 : ((r.drop i).take (j - i + 1)).getLastD 0 = r.getD j 0 := by
    rw [getLastD_eq_getD _ hM, hMlen, Nat.add_sub_cancel,
      getD_take _ _ _ (by omega), getD_drop]
    congr 1
    omega
  have e5 : (r.drop (j + 1)).headD 0 = r.getD (j + 1) 0 := by
    rw [headD_eq_getD _ hB, getD_drop]
  have hrev : reverseSegment r i j =
      r.take i ++ ((r.drop i).take (j - i + 1)).reverse ++ r.drop (j + 1) := rfl
  rw [hrev, routeDistance_rev_mid d hsym _ _ _ hA hM hB, hsplit, e2, e3, e4, e5]
  unfold twoOptDelta
  ring

/-- C8 (amended): when `two_opt_optimization` exits its `while improved`
loop, every route of the resulting solution satisfies: for every index pair
`(i, j)` with `1 ≤ i < j ≤ route length − 2` and `j ≠ i + 1` (the scan's
`j - i == 1` skip makes adjacent windows unclaimed), the four-boundary-edge
delta of reversing `[i..=j]` is non-negative; for a symmetric distance
matrix this says no such reversal reduces the route's total distance. -/
theorem c8_fixpoint_no_improving (d : List (List Int)) (fuel : Nat) (s s1 : Sol)
    (hterm : twoOptTerm d fuel s = some s1) :
    ∀ r ∈ s1, ∀ i j, 1 ≤ i → i < j → j ≠ i + 1 → j + 2 ≤ r.length →
      0 ≤ twoOptDelta d r i j ∧
      ((∀ a b, mat d a b = mat d b a) →
        routeDistance d r ≤ routeDistance d (reverseSegment r i j)) := by
  have hfix := twoOptTerm_fix d fuel s s1 hterm
  obtain ⟨-, hall⟩ := twoOptPass_fix d s1 s1 hfix
  intro r hr i j hi hij hadj hj
  have hdelta : 0 ≤ twoOptDelta d r i j :=
    hall r hr (i, j) (routePairs_complete r.length i j hi hij hadj hj)
  refine ⟨hdelta, fun hsym => ?_⟩
  have heq := reverseSegment_delta d hsym r i j hi hij hj
  omega

/-- Witness for the amended C8 at a concrete terminating run. -/
theorem c8_witness :
    0 ≤ twoOptDelta dOpt [0, 1, 2, 3, 0] 1 3 ∧
      ((∀ a b, mat dOpt a b = mat dOpt b a) →
        routeDistance dOpt [0, 1, 2, 3, 0] ≤
          routeDistance dOpt (reverseSegment [0, 1, 2, 3, 0] 1 3)) :=
  c8_fixpoint_no_improving dOpt 1 [[0, 1, 2, 3, 0]] [[0, 1, 2, 3, 0]] (by decide)
    [0, 1, 2, 3, 0] (by simp) 1 3 (by decide) (by decide) (by decide) (by decide)

/-! ## Termination and coverage of `construct_initial_solution` (C9) -/

theorem getD_set_self {α : Type} : ∀ (l : List α) (i : Nat) (a dflt : α),
    i < l.length → (l.set i a).getD i dflt = a
  | [], _, _, _, h => absurd h (by simp)
  | _ :: _, 0, _, _, _ => rfl
  | _ :: t, i + 1, a, dflt, h => by
    simp only [List.set_cons_succ, List.getD_cons_succ]
    exact getD_set_self t i a dflt (by simpa using h)

theorem getD_set_ne {α : Type} : ∀ (l : List α) (i j : Nat) (a dflt : α),
    i ≠ j → (l.set i a).getD j dflt = l.getD j dflt
  | [], _, _, _, _, _ => by simp
  | _ :: _, 0, 0, _, _, h => absurd rfl h
  | _ :: _, 0, _ + 1, _, _, _ => rfl
  | _ :: _, _ + 1, 0, _, _, _ => rfl
  | _ :: t, i + 1, j + 1, a, dflt, h => by
    simp only [List.set_cons_succ, List.getD_cons_succ]
    exact getD_set_ne t i j a dflt (fun he => h (by rw [he]))

theorem count_false_set_true : ∀ (l : List Bool) (i : Nat),
    i < l.length → l.getD i true = false →
    (l.set i true).count false + 1 = l.count false
  | [], _, h, _ => absurd h (by simp)
  | b :: t, 0, _, hv => by
    have hb : b = false := hv
    subst hb
    simp [List.count_cons]
  | b :: t, i + 1, h, hv => by
    simp only [List.set_cons_succ, List.count_cons]
    have hrec := count_false_set_true t i (by simpa using h) hv
    by_cases hb : b = false <;> simp [hb] <;> omega

theorem all_false_exists : ∀ (l : List Bool), l.all (fun b => b) = false →
    ∃ j, j < l.length ∧ l.getD j true = false
  | [], h => by simp at h
  | b :: t, h => by
    by_cases hb : b = false
    · exact ⟨0, by simp, hb⟩
    · have hb2 : b = true := by
        cases b
        · exact absurd rfl hb
        · rfl
      subst hb2
      simp only [List.all_cons, Bool.true_and] at h
      obtain ⟨j, hj, hv⟩ := all_false_exists t h
      exact ⟨j + 1, by simpa using Nat.succ_lt_succ hj, hv⟩

theorem all_getD_true : ∀ (l : List Bool) (j : Nat),
    l.all (fun b => b) = true → l.getD j true = true
  | [], _, _ => rfl
  | _ :: _, 0, h => by
    simp only [List.all_cons, Bool.and_eq_true] at h
    exact h.1
  | _ :: t, j + 1, h => by
    simp only [List.all_cons, Bool.and_eq_true] at h
    exact all_getD_true t j h.2

theorem count_false_zero_all : ∀ (l : List Bool), l.count false = 0 →
    l.all (fun b => b) = true
  | [], _ => rfl
  | b :: t, h => by
    rw [List.count_cons] at h
    by_cases hb : b = false
    · subst hb
      simp at h
    · have hb2 : b = true := by
        cases b
        · exact absurd rfl hb
        · rfl
      subst hb2
      simp only [List.all_cons, Bool.true_and]
      apply count_false_zero_all t
      simpa using h

theorem nfStep_eq_some (d : List (List Int)) (dem : List Int) (cap : Int)
    (visited : List Bool) (load : Int) (last : Nat) (acc : Option Nat) (x j : Nat)
    (h : nfStep d dem cap visited load last acc x = some j) :
    acc = some j ∨ (j = x ∧ visited.getD x true = false ∧ load + demGet dem x ≤ cap) := by
  unfold nfStep at h
  by_cases hc : visited.getD x true = false ∧ load + demGet dem x ≤ cap
  · rw [if_pos hc] at h
    match acc, h with
    | none, h => exact Or.inr ⟨(Option.some.inj h).symm, hc⟩
    | some b, h =>
      have h3 : (if mat d last x < mat d last b then some x else some b) = some j := h
      by_cases h2 : mat d last x < mat d last b
      · rw [if_pos h2] at h3
        exact Or.inr ⟨(Option.some.inj h3).symm, hc⟩
      · rw [if_neg h2] at h3
        exact Or.inl h3
  · rw [if_neg hc] at h
    exact Or.inl h

theorem nfStep_isSome (d : List (List Int)) (dem : List Int) (cap : Int)
    (visited : List Bool) (load : Int) (last : Nat) (x j : Nat) :
    ∃ y, nfStep d dem cap visited load last (some x) j = some y := by
  unfold nfStep
  by_cases hc : visited.getD j true = false ∧ load + demGet dem j ≤ cap
  · rw [if_pos hc]
    by_cases h2 : mat d last j < mat d last x
    · refine ⟨j, ?_⟩
      show (if mat d last j < mat d last x then some j else some x) = some j
      rw [if_pos h2]
    · refine ⟨x, ?_⟩
      show (if mat d last j < mat d last x then some j else some x) = some x
      rw [if_neg h2]
  · exact ⟨x, if_neg hc⟩

theorem foldl_nfStep_isSome (d : List (List Int)) (dem : List Int) (cap : Int)
    (visited : List Bool) (load : Int) (last : Nat) :
    ∀ (l : List Nat) (x : Nat),
      ∃ y, l.foldl (nfStep d dem cap visited load last) (some x) = some y
  | [], x => ⟨x, rfl⟩
  | j :: t, x => by
    simp only [List.foldl_cons]
    obtain ⟨y, hy⟩ := nfStep_isSome d dem cap visited load last x j
    rw [hy]
    exact foldl_nfStep_isSome d dem cap visited load last t y

theorem foldl_nfStep_progress (d : List (List Int)) (dem : List Int) (cap : Int)
    (visited : List Bool) (load : Int) (last : Nat) :
    ∀ (l : List Nat) (acc : Option Nat) (x : Nat), x ∈ l →
      visited.getD x true = false → load + demGet dem x ≤ cap →
      ∃ y, l.foldl (nfStep d dem cap visited load last) acc = some y := by
  intro l
  induction l with
  | nil =>
    intro acc x hx
    exact absurd hx (List.not_mem_nil x)
  | cons a t ih =>
    intro acc x hx hv hc
    simp only [List.foldl_cons]
    rcases List.mem_cons.mp hx with rfl | hx
    · have hs : ∃ y, nfStep d dem cap visited load last acc x = some y := by
        unfold nfStep
        rw [if_pos ⟨hv, hc⟩]
        match acc with
        | none => exact ⟨x, rfl⟩
        | some b =>
          by_cases h2 : mat d last x < mat d last b
          · refine ⟨x, ?_⟩
            show (if mat d last x < mat d last b then some x else some b) = some x
            rw [if_pos h2]
          · refine ⟨b, ?_⟩
            show (if mat d last x < mat d last b then some x else some b) = some b
            rw [if_neg h2]
      obtain ⟨y, hy⟩ := hs
      rw [hy]
      exact foldl_nfStep_isSome d dem cap visited load last t y
    · exact ih _ x hx hv hc

theorem foldl_nfStep_mem (d : List (List Int)) (dem : List Int) (cap : Int)
    (visited : List Bool) (load : Int) (last : Nat) :
    ∀ (l : List Nat) (acc : Option Nat) (j : Nat),
      l.foldl (nfStep d dem cap visited load last) acc = some j →
      acc = some j ∨ (j ∈ l ∧ visited.getD j true = false ∧ load + demGet dem j ≤ cap) := by
  intro l
  induction l with
  | nil =>
    intro acc j h
    exact Or.inl h
  | cons a t ih =>
    intro acc j h
    simp only [List.foldl_cons] at h
    rcases ih _ j h with h1 | h1
    · rcases nfStep_eq_some d dem cap visited load last acc a j h1 with h2 | h2
      · exact Or.inl h2
      · exact Or.inr ⟨h2.1 ▸ List.mem_cons_self a t, h2.1 ▸ h2.2.1, h2.1 ▸ h2.2.2⟩
    · exact Or.inr ⟨List.mem_cons_of_mem a h1.1, h1.2⟩

theorem nearestFeasible_some (d : List (List Int)) (dem : List Int) (cap : Int)
    (n : Nat) (visited : List Bool) (load : Int) (last : Nat) (j : Nat)
    (h : nearestFeasible d dem cap n visited load last = some j) :
    visited.getD j true = false ∧ load + demGet dem j ≤ cap ∧ 1 ≤ j ∧ j < n := by
  unfold nearestFeasible at h
  rcases foldl_nfStep_mem d dem cap visited load last (List.range' 1 (n - 1)) none j h with
    h1 | h1
  · exact absurd h1 (by simp)
  · obtain ⟨hmem, hv, hc⟩ := h1
    rw [List.mem_range'_1] at hmem
    exact ⟨hv, hc, hmem.1, by omega⟩

theorem nearestFeasible_progress (d : List (List Int)) (dem : List Int) (cap : Int)
    (n : Nat) (visited : List Bool) (load : Int) (last : Nat)
    (x : Nat) (hx1 : 1 ≤ x) (hx2 : x < n)
    (hv : visited.getD x true = false) (hc : load + demGet dem x ≤ cap) :
    ∃ y, nearestFeasible d dem cap n visited load last = some y := by
  apply foldl_nfStep_progress d dem cap visited load last (List.range' 1 (n - 1)) none x _ hv hc
  rw [List.mem_range'_1]
  omega

theorem appendToLast_cons (r s : List Nat) (t : Sol) (x : Nat) :
    appendToLast (r :: s :: t) x = r :: appendToLast (s :: t) x := by
  simp only [appendToLast, List.dropLast_cons₂, List.getLastD_cons, List.cons_append]

theorem mem_flatten_atl : ∀ (sol : Sol) (x a : Nat),
    a ∈ sol.flatten ∨ a = x → a ∈ (appendToLast sol x).flatten
  | [], x, a, h => by
    rcases h with h | h
    · simp at h
    · subst h
      simp [appendToLast]
  | [r], x, a, h => by
    simp only [appendToLast]
    rcases h with h | h
    · simp only [List.flatten_cons, List.flatten_nil, List.append_nil] at h
      simp [h]
    · subst h
      simp
  | r :: s :: t, x, a, h => by
    rw [appendToLast_cons]
    simp only [List.flatten_cons] at h ⊢
    rcases h with h | h
    · rcases List.mem_append.mp h with h | h
      · exact List.mem_append_left _ h
      · exact List.mem_append_right _ (mem_flatten_atl (s :: t) x a (Or.inl h))
    · exact List.mem_append_right _ (mem_flatten_atl (s :: t) x a (Or.inr h))

theorem mem_flatten_closeRoutes (sol : Sol) (a : Nat) (h : a ∈ sol.flatten) :
    a ∈ (closeRoutes sol).flatten := by
  rw [List.mem_flatten] at h ⊢
  obtain ⟨r, hr, ha⟩ := h
  refine ⟨if r.getLastD 0 = 0 then r else r ++ [0], List.mem_map_of_mem _ hr, ?_⟩
  by_cases hc : r.getLastD 0 = 0
  · rw [if_pos hc]
    exact ha
  · rw [if_neg hc]
    exact List.mem_append_left _ ha

theorem count_false_pos : ∀ (l : List Bool) (j : Nat), j < l.length →
    l.getD j true = false → 1 ≤ l.count false
  | [], _, h, _ => absurd h (by simp)
  | b :: t, 0, _, hv => by
    have hb : b = false := hv
    subst hb
    simp [List.count_cons]
  | _ :: t, j + 1, h, hv => by
    have hrec := count_false_pos t j (by simpa using h) hv
    rw [List.count_cons]
    omega

theorem constructGo_exit (d : List (List Int)) (dem : List Int) (cap : Int)
    (n fuel : Nat) (sol : Sol) (visited : List Bool) (load : Int)
    (hall : visited.all (fun b => b) = true) :
    constructGo d dem cap n (fuel + 1) sol visited load = some (closeRoutes sol) := by
  simp only [constructGo]
  rw [if_pos hall]

theorem constructGo_step_some (d : List (List Int)) (dem : List Int) (cap : Int)
    (n fuel : Nat) (sol : Sol) (visited : List Bool) (load : Int) (nxt : Nat)
    (hall : ¬ visited.all (fun b => b) = true)
    (hnf : nearestFeasible d dem cap n visited load ((sol.getLastD []).getLastD 0) = some nxt) :
    constructGo d dem cap n (fuel + 1) sol visited load =
      constructGo d dem cap n fuel (appendToLast sol nxt) (visited.set nxt true)
        (load + demGet dem nxt) := by
  simp only [constructGo]
  rw [if_neg hall, hnf]

theorem constructGo_step_none (d : List (List Int)) (dem : List Int) (cap : Int)
    (n fuel : Nat) (sol : Sol) (visited : List Bool) (load : Int)
    (hall : ¬ visited.all (fun b => b) = true)
    (hnf : nearestFeasible d dem cap n visited load ((sol.getLastD []).getLastD 0) = none) :
    constructGo d dem cap n (fuel + 1) sol visited load =
      constructGo d dem cap n fuel (appendToLast sol 0 ++ [[0]]) visited 0 := by
  simp only [constructGo]
  rw [if_neg hall, hnf]

theorem constructGo_total (d : List (List Int)) (dem : List Int) (cap : Int) (n : Nat)
    (hdem : ∀ j, 1 ≤ j → j < n → demGet dem j ≤ cap) :
    ∀ (k fuel : Nat) (sol : Sol) (visited : List Bool) (load : Int),
      visited.length = n →
      visited.getD 0 true = true →
      visited.count false ≤ k →
      2 * k + 1 ≤ fuel →
      (∀ j, j < n → visited.getD j true = true → j ∈ sol.flatten) →
      ∃ out, constructGo d dem cap n fuel sol visited load = some out ∧
        ∀ j, j < n → j ∈ out.flatten := by
  intro k
  induction k with
  | zero =>
    intro fuel sol visited load hlen h0 hcnt hfuel hinv
    have hall : visited.all (fun b => b) = true :=
      count_false_zero_all visited (Nat.le_zero.mp hcnt)
    match fuel, hfuel with
    | f + 1, _ =>
      refine ⟨closeRoutes sol, constructGo_exit d dem cap n f sol visited load hall, ?_⟩
      intro j hj
      exact mem_flatten_closeRoutes sol j (hinv j hj (all_getD_true visited j hall))
  | succ k ih =>
    intro fuel sol visited load hlen h0 hcnt hfuel hinv
    match fuel, hfuel with
    | f + 1, hfuel =>
      by_cases hall : visited.all (fun b => b) = true
      · refine ⟨closeRoutes sol, constructGo_exit d dem cap n f sol visited load hall, ?_⟩
        intro j hj
        exact mem_flatten_closeRoutes sol j (hinv j hj (all_getD_true visited j hall))
      · have hallf : visited.all (fun b => b) = false := Bool.eq_false_iff.mpr hall
        obtain ⟨j0, hj0len, hj0v⟩ := all_false_exists visited hallf
        have hj0n : j0 < n := hlen ▸ hj0len
        have hj01 : 1 ≤ j0 := by
          by_contra hcon
          have hz : j0 = 0 := by omega
          subst hz
          rw [h0] at hj0v
          exact absurd hj0v (by decide)
        have hcnt1 : 1 ≤ visited.count false := count_false_pos visited j0 hj0len hj0v
        cases hnf : nearestFeasible d dem cap n visited load ((sol.getLastD []).getLastD 0) with
        | some nxt =>
          obtain ⟨hnv, _, hn1, hnn⟩ :=
            nearestFeasible_some d dem cap n visited load _ nxt hnf
          have hnnl : nxt < visited.length := by omega
          have hlen2 : (visited.set nxt true).length = n := by
            rw [List.length_set]
            exact hlen
          have h02 : (visited.set nxt true).getD 0 true = true := by
            rw [getD_set_ne visited nxt 0 true true (by omega)]
            exact h0
          have hcnt2 : (visited.set nxt true).count false ≤ k := by
            have := count_false_set_true visited nxt hnnl hnv
            omega
          have hfuel2 : 2 * k + 1 ≤ f := by omega
          have hinv2 : ∀ j, j < n → (visited.set nxt true).getD j true = true →
              j ∈ (appendToLast sol nxt).flatten := by
            intro j hj hv
            by_cases he : j = nxt
            · subst he
              exact mem_flatten_atl sol j j (Or.inr rfl)
            · rw [getD_set_ne visited nxt j true true (fun hh => he hh.symm)] at hv
              exact mem_flatten_atl sol nxt j (Or.inl (hinv j hj hv))
          obtain ⟨out, hout, hcov⟩ := ih f (appendToLast sol nxt) (visited.set nxt true)
            (load + demGet dem nxt) hlen2 h02 hcnt2 hfuel2 hinv2
          refine ⟨out, ?_, hcov⟩
          rw [constructGo_step_some d dem cap n f sol visited load nxt hall hnf]
          exact hout
        | none =>
          match f, (show 1 ≤ f by omega) with
          | f2 + 1, _ =>
            have hsol2inv : ∀ j, j < n → visited.getD j true = true →
                j ∈ (appendToLast sol 0 ++ [[0]]).flatten := by
              intro j hj hv
              rw [List.flatten_append]
              exact List.mem_append_left _ (mem_flatten_atl sol 0 j (Or.inl (hinv j hj hv)))
            obtain ⟨nxt, hnf2⟩ := nearestFeasible_progress d dem cap n visited 0
              (((appendToLast sol 0 ++ [[0]]).getLastD []).getLastD 0) j0 hj01 hj0n hj0v
              (by simpa using hdem j0 hj01 hj0n)
            obtain ⟨hnv, _, hn1, hnn⟩ :=
              nearestFeasible_some d dem cap n visited 0 _ nxt hnf2
            have hnnl : nxt < visited.length := by omega
            have hlen2 : (visited.set nxt true).length = n := by
              rw [List.length_set]
              exact hlen
            have h02 : (visited.set nxt true).getD 0 true = true := by
              rw [getD_set_ne visited nxt 0 true true (by omega)]
              exact h0
            have hcnt2 : (visited.set nxt true).count false ≤ k := by
              have := count_false_set_true visited nxt hnnl hnv
              omega
            have hfuel2 : 2 * k + 1 ≤ f2 := by omega
            have hinv2 : ∀ j, j < n → (visited.set nxt true).getD j true = true →
                j ∈ (appendToLast (appendToLast sol 0 ++ [[0]]) nxt).flatten := by
              intro j hj hv
              by_cases he : j = nxt
              · subst he
                exact mem_flatten_atl _ j j (Or.inr rfl)
              · rw [getD_set_ne visited nxt j true true (fun hh => he hh.symm)] at hv
                exact mem_flatten_atl _ nxt j (Or.inl (hsol2inv j hj hv))
            obtain ⟨out, hout, hcov⟩ := ih f2 (appendToLast (appendToLast sol 0 ++ [[0]]) nxt)
              (visited.set nxt true) (0 + demGet dem nxt) hlen2 h02 hcnt2 hfuel2 hinv2
            refine ⟨out, ?_, hcov⟩
            rw [constructGo_step_none d dem cap n (f2 + 1) sol visited load hall hnf]
            rw [constructGo_step_some d dem cap n f2 (appendToLast sol 0 ++ [[0]]) visited 0
              nxt hall hnf2]
            exact hout

/-- C9: under the claim's preconditions (`demands[0] = 0` and every demand
at most the capacity), the nearest-neighbor construction terminates —
`2·n + 2` loop iterations always suffice — and every node of the instance
ends up placed in some route of the result. -/
theorem c9_construct_terminates (d : List (List Int)) (dem : List Int) (cap : Int)
    (n : Nat) (_hdem0 : demGet dem 0 = 0)
    (hdem : ∀ j, 1 ≤ j → j < n → demGet dem j ≤ cap) :
    ∃ sol, constructInitialSolution d dem cap n (2 * n + 2) = some sol ∧
      ∀ j, j < n → j ∈ sol.flatten := by
  unfold constructInitialSolution
  apply constructGo_total d dem cap n hdem n (2 * n + 2) [[0]]
    ((List.replicate n false).set 0 true) 0
  · rw [List.length_set, List.length_replicate]
  · cases n with
    | zero => rfl
    | succ m =>
      rw [getD_set_self]
      rw [List.length_replicate]
      omega
  · calc ((List.replicate n false).set 0 true).count false
        ≤ ((List.replicate n false).set 0 true).length := List.count_le_length _ _
      _ = n := by rw [List.length_set, List.length_replicate]
  · omega
  · intro j hj hv
    have hj0 : j = 0 := by
      by_contra hne
      rw [getD_set_ne _ 0 j true true (fun h => hne h.symm)] at hv
      have hrep : (List.replicate n false).getD j true = false := by
        rw [List.getD_eq_getElem?_getD, List.getElem?_replicate]
        rw [if_pos hj]
        rfl
      rw [hrep] at hv
      exact absurd hv (by decide)
    subst hj0
    simp

/-- Witness for C9 at a concrete instance. -/
theorem c9_witness :
    ∃ sol, constructInitialSolution [[0, 1], [1, 0]] [0, 2] 5 2 (2 * 2 + 2) = some sol ∧
      ∀ j, j < 2 → j ∈ sol.flatten :=
  c9_construct_terminates [[0, 1], [1, 0]] [0, 2] 5 2 (by decide)
    (fun j h1 h2 => by
      have hj : j = 1 := by omega
      subst hj
      decide)

/-! ## The iterative controller's outcome (C6) -/

/-- The incumbent ("best") solution after `m` refinement iterations of the
controller, ignoring the early return: adopt the refined clone only when its
recomputed fitness is strictly smaller. -/
def bestAfter (d : List (List Int)) (dem : List Int) (cap : Int) (tfuel : Nat)
    (b0 : Sol) : Nat → Sol
  | 0 => b0
  | m + 1 =>
    let b := bestAfter d dem cap tfuel b0 m
    let nw := refineStep d dem cap tfuel b
    if totalDistance d nw < totalDistance d b then nw else b

theorem bestAfter_shift (d : List (List Int)) (dem : List Int) (cap : Int)
    (tfuel : Nat) (b0 : Sol) :
    ∀ (m : Nat), bestAfter d dem cap tfuel b0 (m + 1) =
      bestAfter d dem cap tfuel (bestAfter d dem cap tfuel b0 1) m
  | 0 => rfl
  | m + 1 => by
    show bestAfter d dem cap tfuel b0 (m + 1 + 1) = _
    conv_lhs => rw [bestAfter]
    conv_rhs => rw [bestAfter]
    rw [bestAfter_shift d dem cap tfuel b0 m]

theorem iterLoop_succ (d : List (List Int)) (dem : List Int) (cap maxD : Int)
    (tfuel k : Nat) (b : Sol) :
    iterLoop d dem cap maxD tfuel (k + 1) b (totalDistance d b) =
      if totalDistance d (bestAfter d dem cap tfuel b 1) ≤ maxD then
        some (bestAfter d dem cap tfuel b 1)
      else iterLoop d dem cap maxD tfuel k (bestAfter d dem cap tfuel b 1)
        (totalDistance d (bestAfter d dem cap tfuel b 1)) := by
  simp only [iterLoop, bestAfter]
  by_cases hc : totalDistance d (refineStep d dem cap tfuel b) < totalDistance d b
  · simp [hc]
  · simp [hc]

theorem iterLoop_some_le (d : List (List Int)) (dem : List Int) (cap maxD : Int)
    (tfuel : Nat) :
    ∀ (k : Nat) (b s : Sol),
      iterLoop d dem cap maxD tfuel k b (totalDistance d b) = some s →
      totalDistance d s ≤ maxD := by
  intro k
  induction k with
  | zero =>
    intro b s h
    exact absurd h (by simp [iterLoop])
  | succ k ih =>
    intro b s h
    rw [iterLoop_succ] at h
    by_cases hok : totalDistance d (bestAfter d dem cap tfuel b 1) ≤ maxD
    · rw [if_pos hok] at h
      rw [← Option.some.inj h]
      exact hok
    · rw [if_neg hok] at h
      exact ih _ s h

theorem iterLoop_iff (d : List (List Int)) (dem : List Int) (cap maxD : Int)
    (tfuel : Nat) :
    ∀ (k : Nat) (b : Sol),
      (∃ s, iterLoop d dem cap maxD tfuel k b (totalDistance d b) = some s) ↔
      (∃ m, 1 ≤ m ∧ m ≤ k ∧ totalDistance d (bestAfter d dem cap tfuel b m) ≤ maxD) := by
  intro k
  induction k with
  | zero =>
    intro b
    constructor
    · rintro ⟨s, h⟩
      exact absurd h (by simp [iterLoop])
    · rintro ⟨m, h1, h2, _⟩
      omega
  | succ k ih =>
    intro b
    rw [iterLoop_succ]
    by_cases hok : totalDistance d (bestAfter d dem cap tfuel b 1) ≤ maxD
    · rw [if_pos hok]
      constructor
      · intro _
        exact ⟨1, le_refl 1, by omega, hok⟩
      · intro _
        exact ⟨_, rfl⟩
    · rw [if_neg hok]
      rw [ih (bestAfter d dem cap tfuel b 1)]
      constructor
      · rintro ⟨m, h1, h2, h3⟩
        refine ⟨m + 1, by omega, by omega, ?_⟩
        rw [bestAfter_shift]
        exact h3
      · rintro ⟨m, h1, h2, h3⟩
        match m, h1, h3 with
        | 1, _, h3 => exact absurd h3 hok
        | m' + 2, _, h3 =>
          refine ⟨m' + 1, by omega, by omega, ?_⟩
          rw [← bestAfter_shift]
          exact h3

/-- C6: with the construction loop exiting normally, the iterative solver
returns `Some` exactly when the incumbent's total distance reaches
`max_total_distance` within `MAX_ITERATIONS` refinement iterations; any
returned solution's recomputed total distance meets the bound; and when the
iteration cap runs out without meeting the bound the result is `Ok(None)`
(the source has no error return at all). -/
theorem c6_iterative_bound_iff (d : List (List Int)) (dem : List Int) (cap maxD : Int)
    (n cfuel tfuel : Nat) (s0 : Sol)
    (hcons : constructInitialSolution d dem cap n cfuel = some s0) :
    ((∃ s, iterativeSolve d dem cap maxD n cfuel tfuel = some (some s)) ↔
      (∃ m, 1 ≤ m ∧ m ≤ MAX_ITERATIONS ∧
        totalDistance d (bestAfter d dem cap tfuel (twoOptGo d tfuel s0) m) ≤ maxD)) ∧
    (∀ s, iterativeSolve d dem cap maxD n cfuel tfuel = some (some s) →
      totalDistance d s ≤ maxD) ∧
    ((iterativeSolve d dem cap maxD n cfuel tfuel = some none) ↔
      ¬ (∃ m, 1 ≤ m ∧ m ≤ MAX_ITERATIONS ∧
        totalDistance d (bestAfter d dem cap tfuel (twoOptGo d tfuel s0) m) ≤ maxD)) := by
  have hsolve : iterativeSolve d dem cap maxD n cfuel tfuel =
      some (iterLoop d dem cap maxD tfuel MAX_ITERATIONS (twoOptGo d tfuel s0)
        (totalDistance d (twoOptGo d tfuel s0))) := by
    unfold iterativeSolve
    rw [hcons]
  refine ⟨?_, ?_, ?_⟩
  · rw [hsolve]
    constructor
    · rintro ⟨s, hs⟩
      exact (iterLoop_iff d dem cap maxD tfuel MAX_ITERATIONS (twoOptGo d tfuel s0)).mp
        ⟨s, Option.some.inj hs⟩
    · intro hm
      obtain ⟨s, hs⟩ :=
        (iterLoop_iff d dem cap maxD tfuel MAX_ITERATIONS (twoOptGo d tfuel s0)).mpr hm
      exact ⟨s, by rw [hs]⟩
  · intro s hs
    rw [hsolve] at hs
    exact iterLoop_some_le d dem cap maxD tfuel MAX_ITERATIONS _ s (Option.some.inj hs)
  · rw [hsolve]
    constructor
    · intro h hm
      obtain ⟨s, hs⟩ :=
        (iterLoop_iff d dem cap maxD tfuel MAX_ITERATIONS (twoOptGo d tfuel s0)).mpr hm
      rw [hs] at h
      exact Option.noConfusion (Option.some.inj h)
    · intro h
      cases hcase : iterLoop d dem cap maxD tfuel MAX_ITERATIONS (twoOptGo d tfuel s0)
          (totalDistance d (twoOptGo d tfuel s0)) with
      | none => rfl
      | some s =>
        exact absurd ((iterLoop_iff d dem cap maxD tfuel MAX_ITERATIONS
          (twoOptGo d tfuel s0)).mp ⟨s, hcase⟩) h

/-- Witness for C6 at a concrete instance (single depot node, bound `0`). -/
theorem c6_witness :
    ((∃ s, iterativeSolve [] [] 0 0 1 4 1 = some (some s)) ↔
      (∃ m, 1 ≤ m ∧ m ≤ MAX_ITERATIONS ∧
        totalDistance [] (bestAfter [] [] 0 1 (twoOptGo [] 1 [[0]]) m) ≤ 0)) ∧
    (∀ s, iterativeSolve [] [] 0 0 1 4 1 = some (some s) → totalDistance [] s ≤ 0) ∧
    ((iterativeSolve [] [] 0 0 1 4 1 = some none) ↔
      ¬ (∃ m, 1 ≤ m ∧ m ≤ MAX_ITERATIONS ∧
        totalDistance [] (bestAfter [] [] 0 1 (twoOptGo [] 1 [[0]]) m) ≤ 0)) :=
  c6_iterative_bound_iff [] [] 0 0 1 4 1 [[0]] (by decide)

end VRP
